import Mathlib

/-!
Shallow embedding of the decision core of the pointlander/robot repository.

The Go sources store a matrix as a flat row-major `[]float32` buffer together
with its `Cols` and `Rows`; the embedding represents the same values as the
list of its rows (`Mat := List (List ℝ)`), and `float32` arithmetic is
modelled by real arithmetic.  Every definition below is translated from a
named Go function of the repository; the Go file and symbol are given in the
doc comment of each definition.
-/

noncomputable section

namespace Robot

/-- Constant `S` of `matrix/matrix.go`: the scaling factor for the softmax,
`S = 1.0 - 1e-300`. -/
def S : ℝ := 1 - 1 / 10 ^ 300

/-- A matrix as the list of its rows (Go: row-major flat buffer with
`Cols`/`Rows`; the invariant is `len(Data) = Cols*Rows`). -/
abbrev Mat := List (List ℝ)

/-- Function `dot` of `matrix/other.go`: the inner product of two equally
long `float32` slices. -/
def dot (a b : List ℝ) : ℝ := (List.zipWith (· * ·) a b).sum

/-- Number of columns of a matrix in the row-list representation: the length
of its first row (Go keeps this in the `Cols` field). -/
def mcols (m : Mat) : ℕ := (m.headD []).length

/-- Function `T` of `matrix/matrix.go`: the transpose.  Go iterates `i` over
the columns and `j` over the rows and emits `Data[j*Cols+i]`, which is entry
`i` of row `j`. -/
def transposeM (m : Mat) : Mat :=
  (List.range (mcols m)).map (fun i => m.map (fun r => r.getD i 0))

/-- Function `MulT` of `matrix/matrix.go`: for each row `nn` of `n` and each
row `mm` of `m`, the entry `dot mm nn`; the result has one row per row of `n`
and one column per row of `m`.  (Go panics when `m.Cols ≠ n.Cols`; the claims
only use it on rows of equal length.) -/
def MulT (m n : Mat) : Mat := n.map (fun nr => m.map (fun mr => dot mr nr))

/-- The first loop of function `softmax` of `matrix/matrix.go`: the running
maximum of the values, starting from `0.0` (so it is the maximum of the row
and `0`). -/
def softmaxMax (values : List ℝ) : ℝ :=
  values.foldl (fun m v => if v > m then v else m) 0

/-- Function `softmax` of `matrix/matrix.go`: subtract the shift
`softmaxMax values * S`, exponentiate, and divide by the sum of the
exponentials.  (Go updates the slice in place; the embedding returns the new
values.) -/
def softmax (values : List ℝ) : List ℝ :=
  let s := softmaxMax values * S
  let exps := values.map (fun v => Real.exp (v - s))
  exps.map (fun e => e / exps.sum)

/-- The per-row body of function `Normalize` of `matrix/matrix.go`: sum of
squares, `length := sqrt(sum)` overridden to `1` when `sum == 0`, and
division of every entry by `length`. -/
def normalizeRow (row : List ℝ) : List ℝ :=
  let sum := (row.map (fun a => a * a)).sum
  let length := if sum = 0 then 1 else Real.sqrt sum
  row.map (fun a => a / length)

/-- Function `Normalize` of `matrix/matrix.go`: `normalizeRow` applied to
each row of the matrix independently (Go walks the flat buffer in strides of
`Cols`). -/
def Normalize (m : Mat) : Mat := m.map normalizeRow

/-- The score loop shared by `SelfAttention` and `SelfEntropy` of
`matrix/matrix.go`: for one row `Ki` of `K`, the softmax of the dot products
of `Ki` against every row of `Q`.  (Go sizes the `values` buffer by `K.Rows`
and fills indices below `Q.Rows`; at every call site of the repository
`Q.Rows = K.Rows`, which is the case the embedding covers.) -/
def attentionValues (Q : Mat) (Ki : List ℝ) : List ℝ :=
  softmax (Q.map (fun Qj => dot Ki Qj))

/-- Function `SelfAttention` of `matrix/matrix.go`: per row of `K`, softmax
of the scores against `Q`, weighted sum over the rows of the transposed `V`,
then a second softmax over the result. -/
def SelfAttention (Q K V : Mat) : Mat :=
  let Vt := transposeM V
  K.map (fun Ki =>
    let values := attentionValues Q Ki
    softmax (Vt.map (fun Vj => dot values Vj)))

/-- Function `SelfEntropy` of `matrix/matrix.go`: identical to
`SelfAttention` up to the second softmax, but returning per row of `K` the
Shannon entropy `-Σ e·ln e` of the second-softmax distribution. -/
def SelfEntropy (Q K V : Mat) : List ℝ :=
  let Vt := transposeM V
  K.map (fun Ki =>
    let values := attentionValues Q Ki
    let entropies := softmax (Vt.map (fun Vj => dot values Vj));
    -((entropies.map (fun e => e * Real.log e)).sum))

/-- The accumulator of function `TaylorSoftmax` of `matrix/matrix.go`: `sum`
is declared once before the row loop, so it accumulates `1 + v + v*v/2` over
every entry of the whole matrix, not per row. -/
def taylorSum (m : Mat) : ℝ :=
  (m.map (fun row => (row.map (fun v => 1 + v + v * v / 2)).sum)).sum

/-- Function `TaylorSoftmax` of `matrix/matrix.go`: every value `v` maps to
`(1 + v + v*v/2) / sum` where `sum` is the matrix-wide accumulator
`taylorSum`. -/
def TaylorSoftmax (m : Mat) : Mat :=
  m.map (fun row => row.map (fun v => (1 + v + v * v / 2) / taylorSum m))

/-- Function `EverettActivation` of `matrix/matrix.go`: each value `x` is
split into `(min 0 x, max 0 x)`, doubling the width of every row. -/
def EverettActivation (m : Mat) : Mat :=
  m.map (fun row => row.flatMap (fun x => [min x 0, max x 0]))

/-- Constant `Samples` of part_001 and part_004: the number of candidate
populations drawn per role per `Fire` call (`SampleCount` in the spec). -/
def Samples : ℕ := 256

/-- Constant `Rate` of part_002/part_005 (`Rate = .3`): the learning rate of
the exponential blend used by part_001's `Net.Fire`. -/
def Rate : ℝ := 3 / 10

/-- Type `Random` of part_001/part_004: the mean and standard deviation of
one (output,input) weight coordinate. -/
structure Random where
  Mean : ℝ
  StdDev : ℝ

/-- Type `Set` of part_001 (`type Set [][]Random`): one `Random` per
(output,input) coordinate, the outer index running over outputs.  (Named
`StatSet` here because `Set` is taken in Lean.) -/
abbrev StatSet := List (List Random)

/-- A deterministic pseudo-random source (Go `rand.Rand` built from
`rand.NewSource(seed)`), modelled as the stream of `NormFloat64` draws it
will produce together with the position of the next draw. -/
structure RNG where
  seq : ℕ → ℝ
  pos : ℕ

/-- One call of `rng.NormFloat64()`: the next draw and the advanced
source. -/
def RNG.norm (r : RNG) : ℝ × RNG := (r.seq r.pos, ⟨r.seq, r.pos + 1⟩)

/-- The pre-threshold draw of `Set.Sample` (part_001 line 50) and of
`Net.Fire` (part_004 line 151): `v := g*StdDev + Mean` for a gaussian draw
`g`.  No branch treats `StdDev ≤ 0` specially. -/
def preThreshold (rv : Random) (g : ℝ) : ℝ := g * rv.StdDev + rv.Mean

/-- The sign threshold applied to every draw:
`if v > 0 { v = 1 } else { v = -1 }`. -/
def signThreshold (v : ℝ) : ℝ := if v > 0 then 1 else -1

/-- The inner loop (`k < inputs`) of `Set.Sample` of part_001: one weight
row, drawing one gaussian per coordinate in order. -/
def sampleRow : List Random → RNG → List ℝ × RNG
  | [], r => ([], r)
  | rv :: rest, r =>
    let g := RNG.norm r
    let tail := sampleRow rest g.2
    (signThreshold (preThreshold rv g.1) :: tail.1, tail.2)

/-- Method `Set.Sample` of part_001 (also inlined in part_004's `Net.Fire`):
one sampled weight row (a `1×Inputs` Go matrix) per output row of the
statistics. -/
def sampleSet : StatSet → RNG → Mat × RNG
  | [], r => ([], r)
  | rowStats :: rest, r =>
    let row := sampleRow rowStats r
    let rows := sampleSet rest row.2
    (row.1 :: rows.1, rows.2)

/-- Type `Net` of part_001: adaptation window (Go `int64`), sizes, owned
random source, and one statistics set per role Q/K/V. -/
structure Net where
  window : ℤ
  Inputs : ℕ
  Outputs : ℕ
  Rng : RNG
  Q : StatSet
  K : StatSet
  V : StatSet

/-- Function `NewStatistics` of part_001: mean 0 and standard deviation 1 at
every (output,input) coordinate. -/
def NewStatistics (inputs outputs : ℕ) : StatSet :=
  List.replicate outputs (List.replicate inputs ⟨0, 1⟩)

/-- Function `NewNet` of part_001: seeds the generator and initializes the
three roles; `gen` models `rand.NewSource` (a seed names a draw stream).
The body performs no validation of the window or the sizes. -/
def NewNet (gen : ℤ → ℕ → ℝ) (seed window : ℤ) (inputs outputs : ℕ) : Net :=
  { window := window, Inputs := inputs, Outputs := outputs,
    Rng := ⟨gen seed, 0⟩,
    Q := NewStatistics inputs outputs,
    K := NewStatistics inputs outputs,
    V := NewStatistics inputs outputs }

/-- Type `Sample` of part_001/part_004: entropy score, sampled weight rows,
and the projected response vector (a `1×Outputs` Go matrix, kept as its
single row). -/
structure Sample where
  Entropy : ℝ
  Neurons : Mat
  Outputs : List ℝ

/-- The statistics recomputation shared by `Net.CalculateStatistics`
(part_001 lines 99-138) and the `next` block of part_004's `Net.Fire`
(lines 178-212): over `systems[:window]`, per coordinate (j,k), the mean
`Σ value / window` and the standard deviation
`sqrt(Σ (mean-value)² / window)`. -/
def statsOf (window : ℤ) (outputs inputs : ℕ) (systems : List Sample) : StatSet :=
  let taken := systems.take window.toNat
  (List.range outputs).map (fun j =>
    (List.range inputs).map (fun k =>
      let vals := taken.map (fun s => (s.Neurons.getD j []).getD k 0)
      let mean := vals.sum / (window : ℝ)
      Random.mk mean
        (Real.sqrt ((vals.map (fun v => (mean - v) * (mean - v))).sum / (window : ℝ)))))

/-- Method `Net.CalculateStatistics` of part_001 (the window is read
atomically from the receiver). -/
def Net.CalculateStatistics (n : Net) (systems : List Sample) : StatSet :=
  statsOf n.window n.Outputs n.Inputs systems

/-- One iteration of the per-role sampling loop of `Net.Fire`: draw the
neurons and project the input through every row; `MulT(neurons[j], input)`
of two `1×Inputs` matrices has the single entry `dot neurons[j] input`. -/
def sampleOne (s : StatSet) (input : List ℝ) (r : RNG) : Sample × RNG :=
  let drawn := sampleSet s r
  (⟨0, drawn.1, drawn.1.map (fun nr => dot nr input)⟩, drawn.2)

/-- The whole per-role sampling loop (`Samples` iterations, sequential
draws from the one generator). -/
def sampleMany : ℕ → StatSet → List ℝ → RNG → List Sample × RNG
  | 0, _, _, r => ([], r)
  | n + 1, s, input, r =>
    let first := sampleOne s input r
    let rest := sampleMany n s input first.2
    (first.1 :: rest.1, rest.2)

/-- The per-input-position sign entropies appended to each role row by
part_001's `Net.Fire` (lines 156-170): `a` counts the population rows with
a negative weight at position `jj`, `b` the rest; after normalizing by
`a+b` the appended value is `-(a·ln a + b·ln b)`. -/
def bitEntropies (inputs : ℕ) (neurons : Mat) : List ℝ :=
  (List.range inputs).map (fun jj =>
    let a : ℝ := (neurons.countP (fun row => decide (row.getD jj 0 < 0)) : ℕ)
    let b : ℝ := (neurons.countP (fun row => decide (¬row.getD jj 0 < 0)) : ℕ);
    -((a / (a + b)) * Real.log (a / (a + b)) + (b / (a + b)) * Real.log (b / (a + b))))

/-- One row of the `q`/`k`/`v` matrices stacked by part_001's `Net.Fire`:
the population's response vector followed by its `bitEntropies` (width
`Outputs + Inputs`). -/
def roleRow (inputs : ℕ) (s : Sample) : List ℝ := s.Outputs ++ bitEntropies inputs s.Neurons

/-- The full `Samples × (Outputs+Inputs)` role matrix of part_001's
`Net.Fire`. -/
def roleMatrix (inputs : ℕ) (samples : List Sample) : Mat := samples.map (roleRow inputs)

/-- The entropy assignment loop of `Net.Fire`:
`systems[i].Entropy = entropies[i]`. -/
def assignEntropies (samples : List Sample) (es : List ℝ) : List Sample :=
  List.zipWith (fun s e => { s with Entropy := e }) samples es

/-- Model of `sort.Slice(systemsX, ...)` of part_001's `Net.Fire`: the
systems rearranged into nondecreasing entropy order.  Go's `sort.Slice`
yields some sorted permutation (it is not guaranteed stable); the embedding
fixes one sorted permutation. -/
def sortByEntropy (samples : List Sample) : List Sample :=
  samples.mergeSort (fun a b => decide (a.Entropy ≤ b.Entropy))

/-- The statistics update of part_001's `Net.Fire` (lines 248-268): every
live coordinate moves toward the recomputed elite statistics by the
exponential blend `new = (1-Rate)*old + Rate*elite`. -/
def blendSet (old elite : StatSet) : StatSet :=
  List.zipWith (fun orow erow =>
    List.zipWith (fun o e =>
      Random.mk ((1 - Rate) * o.Mean + Rate * e.Mean)
        ((1 - Rate) * o.StdDev + Rate * e.StdDev)) orow erow) old elite

/-- Method `Net.Fire` of part_001 (lines 141-270): draw `Samples`
populations per role (Q then K then V, sequentially from the one
generator), score all of them with a single `SelfEntropy` over the stacked
role matrices, sort each role's systems by that entropy, blend the live
statistics toward the elite window's recomputed statistics, and return the
response vector of the lowest-entropy V-role population. -/
def Net.Fire (n : Net) (input : List ℝ) : List ℝ × Net :=
  let sq := sampleMany Samples n.Q input n.Rng
  let sk := sampleMany Samples n.K input sq.2
  let sv := sampleMany Samples n.V input sk.2
  let entropies := SelfEntropy (roleMatrix n.Inputs sq.1) (roleMatrix n.Inputs sk.1)
    (roleMatrix n.Inputs sv.1)
  let systemsQ := sortByEntropy (assignEntropies sq.1 entropies)
  let systemsK := sortByEntropy (assignEntropies sk.1 entropies)
  let systemsV := sortByEntropy (assignEntropies sv.1 entropies)
  let updated : Net :=
    { n with
      Rng := sv.2
      Q := blendSet n.Q (n.CalculateStatistics systemsQ)
      K := blendSet n.K (n.CalculateStatistics systemsK)
      V := blendSet n.V (n.CalculateStatistics systemsV) }
  ((systemsV.headD ⟨0, [], []⟩).Outputs, updated)

/-- A sequence of synchronous `Fire` calls: the returned vectors in order
and the final net. -/
def FireSeq (n : Net) : List (List ℝ) → List (List ℝ) × Net
  | [] => ([], n)
  | x :: xs =>
    let y := Net.Fire n x
    let ys := FireSeq y.2 xs
    (y.1 :: ys.1, ys.2)

/-- Type `Net` of part_004: the single-role variant with one
`Distribution`. -/
structure Net4 where
  window : ℤ
  Inputs : ℕ
  Outputs : ℕ
  Rng : RNG
  Distribution : StatSet

/-- Function `NewNet` of part_004 (lines 108-126): same construction as
part_001's with a single distribution initialized to mean 0 and standard
deviation 1; again the body performs no validation of any argument. -/
def NewNet4 (gen : ℤ → ℕ → ℝ) (seed window : ℤ) (inputs outputs : ℕ) : Net4 :=
  { window := window, Inputs := inputs, Outputs := outputs,
    Rng := ⟨gen seed, 0⟩,
    Distribution := List.replicate outputs (List.replicate inputs ⟨0, 1⟩) }

/-- Method `Net.Fire` of part_004 (lines 141-215): draw `Samples`
populations, score the stacked `Samples × Outputs` response matrix with
`SelfEntropy`, store the entropies into the systems, then execute
`sort.Slice(entropies, func(i, j) { systems[i].Entropy < systems[j].Entropy })`
— which permutes only the local `entropies` slice and leaves `systems` in
original sampling order — recompute the distribution from
`systems[:window]`, replace it, and return `systems[0].Outputs`. -/
def Net4.Fire (n : Net4) (input : List ℝ) : List ℝ × Net4 :=
  let drawn := sampleMany Samples n.Distribution input n.Rng
  let output := drawn.1.map Sample.Outputs
  let entropies := SelfEntropy output output output
  let systems := assignEntropies drawn.1 entropies
  let next := statsOf n.window n.Outputs n.Inputs systems
  ((systems.headD ⟨0, [], []⟩).Outputs, { n with Distribution := next, Rng := drawn.2 })

/-- The distribution invariant stated by the spec for every role set: each
coordinate's mean lies in `[-1, 1]` and its standard deviation is
nonnegative (finiteness is implicit in the real-valued model). -/
def GoodSet (s : StatSet) : Prop :=
  ∀ row ∈ s, ∀ rv ∈ row, (-1 ≤ rv.Mean ∧ rv.Mean ≤ 1) ∧ 0 ≤ rv.StdDev

/-!  Theorems.  Helper lemmas come first; each claim of the specification is
then settled by one named theorem. -/

/-- Reading a list at any index with a default preserves any predicate that
holds for the members and for the default. -/
theorem getD_pred {α : Type} (P : α → Prop) (d : α) (hd : P d) :
    ∀ (l : List α) (i : ℕ), (∀ x ∈ l, P x) → P (l.getD i d)
  | [], _, _ => by simpa [List.getD] using hd
  | x :: xs, 0, h => by simpa [List.getD] using h x (List.mem_cons_self x xs)
  | x :: xs, i + 1, h => by
    simpa [List.getD] using
      getD_pred P d hd xs i (fun y hy => h y (List.mem_cons_of_mem x hy))

/-- Dividing every element of a list distributes over the sum. -/
theorem sum_map_div (l : List ℝ) (c : ℝ) :
    (l.map (fun x => x / c)).sum = l.sum / c := by
  induction l with
  | nil => simp
  | cons x xs ih => simp [ih, add_div]

/-- A sum of values of absolute value at most one is bounded by the
length. -/
theorem abs_sum_le_length (l : List ℝ) (h : ∀ x ∈ l, |x| ≤ 1) :
    |l.sum| ≤ l.length := by
  induction l with
  | nil => simp
  | cons x xs ih =>
    have hx := h x (List.mem_cons_self x xs)
    have hxs := ih (fun y hy => h y (List.mem_cons_of_mem x hy))
    have habs : |x + xs.sum| ≤ |x| + |xs.sum| := abs_add _ _
    simp only [List.sum_cons, List.length_cons]
    push_cast
    calc |x + xs.sum| ≤ |x| + |xs.sum| := habs
      _ ≤ 1 + xs.length := add_le_add hx hxs
      _ = xs.length + 1 := by ring

/-- The running maximum of `softmax` never drops below its initial value. -/
theorem foldMax_init_le (l : List ℝ) :
    ∀ a : ℝ, a ≤ l.foldl (fun m v => if v > m then v else m) a := by
  induction l with
  | nil => intro a; simp
  | cons x xs ih =>
    intro a
    refine le_trans ?_ (ih (if x > a then x else a))
    by_cases h : x > a
    · simp only [if_pos h]; linarith
    · simp only [if_neg h]; exact le_rfl

/-- The running maximum of `softmax` dominates every list element. -/
theorem foldMax_mem_le (l : List ℝ) :
    ∀ (a v : ℝ), v ∈ l → v ≤ l.foldl (fun m v => if v > m then v else m) a := by
  induction l with
  | nil => intro a v hv; cases hv
  | cons x xs ih =>
    intro a v hv
    rcases List.mem_cons.mp hv with rfl | hv
    · rw [List.foldl_cons]
      refine le_trans ?_ (foldMax_init_le xs _)
      by_cases h : v > a
      · simp only [if_pos h]; exact le_rfl
      · simp only [if_neg h]; linarith [not_lt.mp h]
    · exact ih _ v hv

/-- The running maximum of `softmax` is the initial value or a list
element. -/
theorem foldMax_mem_or (l : List ℝ) :
    ∀ a : ℝ, l.foldl (fun m v => if v > m then v else m) a = a ∨
      l.foldl (fun m v => if v > m then v else m) a ∈ l := by
  induction l with
  | nil => intro a; left; rfl
  | cons x xs ih =>
    intro a
    rw [List.foldl_cons]
    rcases ih (if x > a then x else a) with h | h
    · rw [h]
      by_cases hx : x > a
      · right; simp [hx]
      · left; simp [hx]
    · right; exact List.mem_cons_of_mem x h

/-- C2, counterexample: constructing a `Net` with adaptation window `0`
(which is `≤ 0`) does not fail — `NewNet` returns a normally initialized
net that stores the window `0` unchanged, refuting the claim that such a
construction is rejected eagerly. -/
theorem newNet_accepts_zero_window :
    NewNet (fun _ _ => 0) 1 0 4 2 =
      { window := 0, Inputs := 4, Outputs := 2, Rng := ⟨fun _ => 0, 0⟩,
        Q := NewStatistics 4 2, K := NewStatistics 4 2,
        V := NewStatistics 4 2 } := rfl

/-- C2, amended: `NewNet` (part_001) and `NewNet` (part_004) perform no
validation of the adaptation window; every window value — including
`W ≤ 0` and `W > SampleCount` — is accepted and stored unchanged, neither
clamped nor rejected.  Misuse surfaces only later, inside `Fire`. -/
theorem newNet_stores_window (gen : ℤ → ℕ → ℝ) (seed window : ℤ)
    (inputs outputs : ℕ) :
    (NewNet gen seed window inputs outputs).window = window ∧
    (NewNet4 gen seed window inputs outputs).window = window :=
  ⟨rfl, rfl⟩

/-- C3, counterexample: on the two-row matrix `[[0], [1]]` the first output
row of `TaylorSoftmax` sums to `2/7`, not `1` — the denominator is
accumulated over the whole matrix, so the rows are not normalized
independently. -/
theorem taylorSoftmax_row_counterexample :
    ((TaylorSoftmax [[(0 : ℝ)], [1]]).headD []).sum ≠ 1 := by
  norm_num [TaylorSoftmax, taylorSum]

/-- Summing the Taylor terms divided by a constant over all rows yields the
matrix-wide accumulator divided by that constant. -/
theorem taylor_map_sum_div (m : Mat) (c : ℝ) :
    ((m.map (fun row => row.map (fun v => (1 + v + v * v / 2) / c))).map
      List.sum).sum = taylorSum m / c := by
  induction m with
  | nil => simp [taylorSum]
  | cons row rest ih =>
    have hrow : (row.map (fun v => (1 + v + v * v / 2) / c)).sum
        = (row.map (fun v => 1 + v + v * v / 2)).sum / c := by
      rw [show (fun v => (1 + v + v * v / 2) / c)
            = (fun x => x / c) ∘ (fun v : ℝ => 1 + v + v * v / 2) from rfl,
          ← List.map_map, sum_map_div]
    have ht : taylorSum (row :: rest)
        = (row.map (fun v => 1 + v + v * v / 2)).sum + taylorSum rest := by
      simp [taylorSum]
    rw [List.map_cons, List.map_cons, List.sum_cons, hrow, ih, ht, add_div]

/-- C3, amended: `TaylorSoftmax` maps each value `v` to `(1 + v + v²/2)`
divided by the sum of `(1 + v + v²/2)` over the ENTIRE matrix, so the grand
total over all entries — not each row independently — equals 1 whenever
that denominator is nonzero. -/
theorem taylorSoftmax_grand_total (m : Mat) (h : taylorSum m ≠ 0) :
    ((TaylorSoftmax m).map List.sum).sum = 1 := by
  unfold TaylorSoftmax
  rw [taylor_map_sum_div m (taylorSum m), div_self h]

/-- C3, witness for the amended theorem at the matrix `[[0], [1]]`. -/
theorem taylorSoftmax_grand_total_witness :
    taylorSum [[(0 : ℝ)], [1]] ≠ 0 ∧
    ((TaylorSoftmax [[(0 : ℝ)], [1]]).map List.sum).sum = 1 :=
  ⟨by norm_num [taylorSum], taylorSoftmax_grand_total _ (by norm_num [taylorSum])⟩

/-- C4, counterexample: a coordinate with standard deviation `-1 ≤ 0` does
not sample deterministically at its mean — the gaussian draw `1` gives the
pre-threshold value `-1 ≠ 0`; only standard deviation exactly `0` removes
the noise. -/
theorem preThreshold_negative_stddev_counterexample :
    (Random.mk 0 (-1)).StdDev ≤ 0 ∧
    preThreshold (Random.mk 0 (-1)) 1 ≠ (Random.mk 0 (-1)).Mean := by
  refine ⟨by norm_num, ?_⟩
  norm_num [preThreshold]

/-- C4, amended: when a coordinate's standard deviation is exactly `0`, the
pre-threshold value `g·StdDev + Mean` equals the mean for every gaussian
draw `g` — the draw is deterministic and no undefined value arises — and
the resulting weight is the fixed sign of the mean. -/
theorem preThreshold_zero_stddev (rv : Random) (g : ℝ) (h : rv.StdDev = 0) :
    preThreshold rv g = rv.Mean ∧
    signThreshold (preThreshold rv g) = signThreshold rv.Mean := by
  simp [preThreshold, h]

/-- C4, witness for the amended theorem at mean `5`, standard deviation `0`,
draw `3`. -/
theorem preThreshold_zero_stddev_witness :
    (Random.mk 5 0).StdDev = 0 ∧ preThreshold (Random.mk 5 0) 3 = (Random.mk 5 0).Mean :=
  ⟨rfl, (preThreshold_zero_stddev (Random.mk 5 0) 3 rfl).1⟩

/-- C7, counterexample: on the all-negative row `[-1, -2]` the running
maximum of `softmax` starts at `0`, so the shift is `0 · S = 0`, not
`(row maximum) · S = -1 · S` — the shift does not equal the row maximum
times `S` for every row. -/
theorem softmax_shift_counterexample :
    ((-1 : ℝ) ∈ [(-1 : ℝ), -2] ∧ ∀ v ∈ [(-1 : ℝ), -2], v ≤ -1) ∧
    softmaxMax [(-1 : ℝ), -2] * S = 0 ∧ (0 : ℝ) ≠ (-1) * S := by
  refine ⟨⟨by simp, ?_⟩, ?_, ?_⟩
  · intro v hv
    rcases List.mem_cons.mp hv with rfl | hv
    · exact le_rfl
    · rcases List.mem_cons.mp hv with rfl | hv
      · norm_num
      · cases hv
  · have hm : softmaxMax [(-1 : ℝ), -2] = 0 := by norm_num [softmaxMax]
    rw [hm, zero_mul]
  · have hS : (0 : ℝ) < S := by norm_num [S]
    intro heq
    nlinarith [hS]

/-- C7, amended: the shift subtracted by `softmax` is `M · S` where `M` is
the running maximum started at `0` (that is, `max 0 (row maximum)`) and
`S = 1 - 1e-300 < 1`; whenever the row holds a positive value, `M` is the
true row maximum (an element of the row dominating all others) and the
shift `M · S` is strictly below it. -/
theorem softmax_shift_bound (values : List ℝ) (h : ∃ v ∈ values, 0 < v) :
    S < 1 ∧ softmaxMax values ∈ values ∧
    (∀ v ∈ values, v ≤ softmaxMax values) ∧
    softmaxMax values * S < softmaxMax values := by
  obtain ⟨w, hw, hw0⟩ := h
  have hmem_le : ∀ v ∈ values, v ≤ softmaxMax values := by
    intro v hv
    simpa [softmaxMax] using foldMax_mem_le values 0 v hv
  have hpos : 0 < softmaxMax values := lt_of_lt_of_le hw0 (hmem_le w hw)
  have hS1 : S < 1 := by norm_num [S]
  have hmem : softmaxMax values ∈ values := by
    rcases foldMax_mem_or values 0 with h0 | hm
    · exfalso
      have : softmaxMax values = 0 := by simpa [softmaxMax] using h0
      rw [this] at hpos
      exact lt_irrefl 0 hpos
    · simpa [softmaxMax] using hm
  exact ⟨hS1, hmem, hmem_le, mul_lt_of_lt_one_right hpos hS1⟩

/-- C7, witness for the amended theorem at the row `[2, -1]`. -/
theorem softmax_shift_bound_witness :
    (∃ v ∈ [(2 : ℝ), -1], 0 < v) ∧
    (S < 1 ∧ softmaxMax [(2 : ℝ), -1] ∈ [(2 : ℝ), -1] ∧
     (∀ v ∈ [(2 : ℝ), -1], v ≤ softmaxMax [(2 : ℝ), -1]) ∧
     softmaxMax [(2 : ℝ), -1] * S < softmaxMax [(2 : ℝ), -1]) :=
  ⟨⟨2, by simp, by norm_num⟩, softmax_shift_bound _ ⟨2, by simp, by norm_num⟩⟩

/-- The sum of squares after dividing every entry by a constant. -/
theorem sum_sq_div (row : List ℝ) (c : ℝ) :
    ((row.map (fun a => a / c)).map (fun a => a * a)).sum
      = (row.map (fun a => a * a)).sum / (c * c) := by
  induction row with
  | nil => simp
  | cons x xs ih =>
    simp only [List.map_cons, List.sum_cons, ih, add_div]
    congr 1
    rw [div_mul_div_comm]

/-- C8: `Normalize` rescales each row independently through `normalizeRow`;
a row with nonzero L2 norm gets exact L2 norm `1`, and a row whose L2 norm
is zero is returned unchanged (no undefined value arises). -/
theorem normalize_rows (m : Mat) :
    Normalize m = m.map normalizeRow ∧
    ∀ row : List ℝ,
      (Real.sqrt ((row.map (fun a => a * a)).sum) ≠ 0 →
        Real.sqrt (((normalizeRow row).map (fun a => a * a)).sum) = 1) ∧
      (Real.sqrt ((row.map (fun a => a * a)).sum) = 0 → normalizeRow row = row) := by
  refine ⟨rfl, fun row => ?_⟩
  have hq : 0 ≤ (row.map (fun a => a * a)).sum := by
    apply List.sum_nonneg
    intro x hx
    obtain ⟨a, _, rfl⟩ := List.mem_map.mp hx
    exact mul_self_nonneg a
  constructor
  · intro hne
    have hsum_ne : (row.map (fun a => a * a)).sum ≠ 0 := by
      intro h0
      exact hne (by rw [h0, Real.sqrt_zero])
    have hsum_pos : 0 < (row.map (fun a => a * a)).sum := lt_of_le_of_ne hq (Ne.symm hsum_ne)
    unfold normalizeRow
    simp only [if_neg hsum_ne]
    rw [sum_sq_div, Real.mul_self_sqrt hq, div_self hsum_ne, Real.sqrt_one]
  · intro h0
    have hsum0 : (row.map (fun a => a * a)).sum = 0 := by
      have := Real.sqrt_eq_zero hq
      exact (Real.sqrt_eq_zero hq).mp h0
    unfold normalizeRow
    simp only [if_pos hsum0]
    simp

/-- C8, witness at the row `[3, 4]` (norm `5`) inside the one-row matrix. -/
theorem normalize_rows_witness :
    Real.sqrt ((([(3 : ℝ), 4]).map (fun a => a * a)).sum) ≠ 0 ∧
    Real.sqrt ((((normalizeRow [(3 : ℝ), 4])).map (fun a => a * a)).sum) = 1 := by
  have h : Real.sqrt ((([(3 : ℝ), 4]).map (fun a => a * a)).sum) ≠ 0 := by
    have : (([(3 : ℝ), 4]).map (fun a => a * a)).sum = 25 := by norm_num
    rw [this]
    positivity
  exact ⟨h, ((normalize_rows [[(3 : ℝ), 4]]).2 [(3 : ℝ), 4]).1 h⟩

/-- Mapping a constant function over a list gives a replicate of the given
length. -/
theorem map_const_eq {α β : Type} (l : List α) (b : β) :
    l.map (fun _ => b) = List.replicate l.length b := by
  induction l with
  | nil => rfl
  | cons x xs ih => simp [ih, List.replicate_succ]

/-- Every element of a `zipWith` comes from corresponding members of the two
lists. -/
theorem mem_zipWith {α β γ : Type} (f : α → β → γ) :
    ∀ (l₁ : List α) (l₂ : List β), ∀ c ∈ List.zipWith f l₁ l₂,
      ∃ a ∈ l₁, ∃ b ∈ l₂, c = f a b := by
  intro l₁
  induction l₁ with
  | nil => intro l₂ c hc; cases hc
  | cons a as ih =>
    intro l₂ c hc
    cases l₂ with
    | nil => cases hc
    | cons b bs =>
      rw [List.zipWith_cons_cons] at hc
      rcases List.mem_cons.mp hc with rfl | hc
      · exact ⟨a, List.mem_cons_self a as, b, List.mem_cons_self b bs, rfl⟩
      · obtain ⟨x, hx, y, hy, hxy⟩ := ih bs c hc
        exact ⟨x, List.mem_cons_of_mem a hx, y, List.mem_cons_of_mem b hy, hxy⟩

/-- The softmax of a constant row is the uniform distribution. -/
theorem softmax_replicate (m : ℕ) (a : ℝ) (hm : 1 ≤ m) :
    softmax (List.replicate m a) = List.replicate m (1 / (m : ℝ)) := by
  unfold softmax
  dsimp only
  rw [List.map_replicate, List.sum_replicate, nsmul_eq_mul, List.map_replicate]
  congr 1
  have hne : Real.exp (a - softmaxMax (List.replicate m a) * S) ≠ 0 := Real.exp_ne_zero _
  have hmne : ((m : ℕ) : ℝ) ≠ 0 := Nat.cast_ne_zero.mpr (by omega)
  field_simp
  ring

/-- The dot product of two constant rows of equal length. -/
theorem dot_replicate (m : ℕ) (a b : ℝ) :
    dot (List.replicate m a) (List.replicate m b) = (m : ℝ) * (a * b) := by
  unfold dot
  rw [List.zipWith_replicate, min_self, List.sum_replicate, nsmul_eq_mul]

/-- The transpose of the constant square matrix is itself. -/
theorem transposeM_replicate (m : ℕ) (c : ℝ) (hm : 1 ≤ m) :
    transposeM (List.replicate m (List.replicate m c))
      = List.replicate m (List.replicate m c) := by
  unfold transposeM mcols
  have hhead : (List.replicate m (List.replicate m c)).headD [] = List.replicate m c := by
    cases m with
    | zero => exact absurd hm (by norm_num)
    | succ k => simp [List.replicate_succ]
  rw [hhead, List.length_replicate]
  have hpt : ∀ i ∈ List.range m,
      (List.replicate m (List.replicate m c)).map (fun r => r.getD i 0)
        = List.replicate m c := by
    intro i hi
    rw [List.map_replicate]
    congr 1
    rw [List.getD_eq_getElem?_getD, List.getElem?_replicate,
      if_pos (List.mem_range.mp hi)]
    rfl
  rw [List.map_congr_left hpt, map_const_eq, List.length_range]

/-- C5: whenever `1 ≤ W ≤ SampleCount` and all `W` elite populations passed
to `CalculateStatistics` share the identical weight pattern `P`, the
recomputed per-(output,input) coordinate carries the pattern's value as its
mean and exactly `0` as its standard deviation. -/
theorem calculateStatistics_identical (n : Net) (systems : List Sample) (P : Mat)
    (hw1 : 1 ≤ n.window) (hw2 : n.window ≤ (Samples : ℤ))
    (hlen : systems.length = Samples)
    (hP : ∀ s ∈ systems.take n.window.toNat, s.Neurons = P) :
    n.CalculateStatistics systems =
      (List.range n.Outputs).map (fun j =>
        (List.range n.Inputs).map (fun k =>
          Random.mk ((P.getD j []).getD k 0) 0)) := by
  have h0 : (0 : ℤ) ≤ n.window := le_trans zero_le_one hw1
  have hWR : ((n.window.toNat : ℕ) : ℝ) = ((n.window : ℤ) : ℝ) := by
    exact_mod_cast congrArg (fun z : ℤ => (z : ℝ)) (Int.toNat_of_nonneg h0)
  have hWpos : (0 : ℝ) < ((n.window : ℤ) : ℝ) := by
    have : (0 : ℤ) < n.window := lt_of_lt_of_le zero_lt_one hw1
    exact_mod_cast this
  have hWne : ((n.window : ℤ) : ℝ) ≠ 0 := ne_of_gt hWpos
  have htake : n.window.toNat ≤ systems.length := by
    rw [hlen]
    have := Int.toNat_le_toNat hw2
    simpa using this
  unfold Net.CalculateStatistics statsOf
  apply List.map_congr_left
  intro j _
  apply List.map_congr_left
  intro k _
  have hvals : (systems.take n.window.toNat).map
      (fun s => (s.Neurons.getD j []).getD k 0)
      = List.replicate n.window.toNat ((P.getD j []).getD k 0) := by
    rw [List.map_congr_left (fun s hs => by rw [hP s hs])]
    rw [map_const_eq, List.length_take, min_eq_left htake]
  simp only [hvals, List.sum_replicate, nsmul_eq_mul, hWR, List.map_replicate]
  rw [mul_div_cancel_left₀ _ hWne]
  simp

/-- C5, witness: a one-coordinate net with window 1 and a single elite
population holding the weight pattern `[[1]]`. -/
theorem calculateStatistics_identical_witness :
    ((1 : ℤ) ≤ 1 ∧ (1 : ℤ) ≤ (Samples : ℤ) ∧
      (List.replicate Samples (Sample.mk 0 [[(1 : ℝ)]] [1])).length = Samples) ∧
    (Net.mk 1 1 1 ⟨fun _ => 0, 0⟩ (NewStatistics 1 1) (NewStatistics 1 1)
        (NewStatistics 1 1)).CalculateStatistics
        (List.replicate Samples (Sample.mk 0 [[(1 : ℝ)]] [1])) =
      (List.range 1).map (fun j => (List.range 1).map (fun k =>
        Random.mk (([[(1 : ℝ)]].getD j []).getD k 0) 0)) := by
  refine ⟨⟨le_rfl, by norm_num [Samples], by simp⟩, ?_⟩
  exact calculateStatistics_identical _ _ _ (by norm_num) (by norm_num [Samples])
    (by simp) (fun s hs => by
      have := List.take_subset _ _ hs
      rw [List.eq_of_mem_replicate this])

/-- C6: for `Q = K = V` the `N×N` matrix whose rows are all the constant
positive vector `c`, the softmax attention weights of
`SelfEntropy`/`SelfAttention` are uniform (`1/N` each), `SelfAttention`
returns the uniform matrix, and every per-row entropy returned by
`SelfEntropy` equals `ln N`. -/
theorem selfEntropy_uniform (N : ℕ) (c : ℝ) (hN : 1 ≤ N) (hc : 0 < c) :
    attentionValues (List.replicate N (List.replicate N c)) (List.replicate N c)
      = List.replicate N (1 / (N : ℝ)) ∧
    SelfAttention (List.replicate N (List.replicate N c))
        (List.replicate N (List.replicate N c)) (List.replicate N (List.replicate N c))
      = List.replicate N (List.replicate N (1 / (N : ℝ))) ∧
    SelfEntropy (List.replicate N (List.replicate N c))
        (List.replicate N (List.replicate N c)) (List.replicate N (List.replicate N c))
      = List.replicate N (Real.log (N : ℝ)) := by
  have hNR : ((N : ℕ) : ℝ) ≠ 0 := Nat.cast_ne_zero.mpr (by omega)
  have hvals : attentionValues (List.replicate N (List.replicate N c))
      (List.replicate N c) = List.replicate N (1 / (N : ℝ)) := by
    unfold attentionValues
    rw [List.map_replicate, softmax_replicate _ _ hN]
  have hmid : (transposeM (List.replicate N (List.replicate N c))).map
      (fun Vj => dot (List.replicate N (1 / (N : ℝ))) Vj) = List.replicate N c := by
    rw [transposeM_replicate N c hN, List.map_replicate, dot_replicate]
    congr 1
    field_simp
  have hrow : softmax ((transposeM (List.replicate N (List.replicate N c))).map
      (fun Vj => dot (attentionValues (List.replicate N (List.replicate N c))
        (List.replicate N c)) Vj)) = List.replicate N (1 / (N : ℝ)) := by
    rw [hvals, hmid, softmax_replicate _ _ hN]
  refine ⟨hvals, ?_, ?_⟩
  · show (List.replicate N (List.replicate N c)).map (fun Ki =>
        softmax ((transposeM (List.replicate N (List.replicate N c))).map
          (fun Vj => dot (attentionValues (List.replicate N (List.replicate N c)) Ki) Vj)))
      = List.replicate N (List.replicate N (1 / (N : ℝ)))
    rw [List.map_replicate, hrow]
  · show (List.replicate N (List.replicate N c)).map (fun Ki =>
        -(((softmax ((transposeM (List.replicate N (List.replicate N c))).map
            (fun Vj => dot (attentionValues (List.replicate N (List.replicate N c)) Ki)
              Vj))).map (fun e => e * Real.log e)).sum))
      = List.replicate N (Real.log (N : ℝ))
    rw [List.map_replicate, hrow, List.map_replicate, List.sum_replicate, nsmul_eq_mul]
    congr 1
    have hrw : ((N : ℕ) : ℝ) * (1 / (N : ℝ) * Real.log (1 / (N : ℝ)))
        = Real.log (1 / (N : ℝ)) := by
      field_simp
    rw [hrw, one_div, Real.log_inv, neg_neg]

/-- C6, witness at `N = 2`, `c = 1`. -/
theorem selfEntropy_uniform_witness :
    ((1 : ℕ) ≤ 2 ∧ (0 : ℝ) < 1) ∧
    SelfEntropy (List.replicate 2 (List.replicate 2 (1 : ℝ)))
        (List.replicate 2 (List.replicate 2 (1 : ℝ)))
        (List.replicate 2 (List.replicate 2 (1 : ℝ)))
      = List.replicate 2 (Real.log ((2 : ℕ) : ℝ)) :=
  ⟨⟨by norm_num, by norm_num⟩, (selfEntropy_uniform 2 1 (by norm_num) (by norm_num)).2.2⟩

/-- Assigning entropies does not change which sample sits first: the head of
the scored systems still carries the first-sampled response vector. -/
theorem assign_headD_outputs (samples : List Sample) (dflt : Sample)
    (hd : dflt.Outputs = []) :
    ((assignEntropies samples (SelfEntropy (samples.map Sample.Outputs)
        (samples.map Sample.Outputs) (samples.map Sample.Outputs))).headD dflt).Outputs
      = (samples.headD dflt).Outputs := by
  cases samples with
  | nil => simp [assignEntropies]
  | cons s0 rest =>
    simp only [SelfEntropy, List.map_cons, assignEntropies, List.zipWith_cons_cons,
      List.headD_cons]

/-- C1, code evaluation: part_004's `Net.Fire` returns the response vector
of the FIRST population in original sampling order, for every net, input
and generator state.  The `sort.Slice(entropies, ...)` call sorts only the
local `entropies` slice (its comparator reads the unsorted `systems`), so
`systems` is never reordered and the returned `systems[0].Outputs` is
independent of the computed entropies — it is not in general the
minimum-entropy population's response, contradicting the claim (part_001's
`Net.Fire` sorts the `systems` slices themselves, which is the evident
intent). -/
theorem fire4_returns_first_sample (n : Net4) (input : List ℝ) :
    (Net4.Fire n input).1
      = ((sampleMany Samples n.Distribution input n.Rng).1.headD
          (Sample.mk 0 [] [])).Outputs := by
  unfold Net4.Fire
  dsimp only
  exact assign_headD_outputs _ _ rfl

/-- C9: two nets constructed with the same seed (hence the same owned draw
stream), the same window and the same sizes produce, on any identical
sequence of `Fire` inputs, the identical sequence of output vectors and
identical final distribution states.  In the embedding `Net.Fire` is a pure
function of the net's own state — seeded generator, window, sizes and the
three distribution sets — which expresses that the net-owned seeded
generator is the only source of randomness. -/
theorem fire_deterministic (gen : ℤ → ℕ → ℝ) (seed window : ℤ)
    (inputs outputs : ℕ) (xs : List (List ℝ)) (n₁ n₂ : Net)
    (h₁ : n₁ = NewNet gen seed window inputs outputs)
    (h₂ : n₂ = NewNet gen seed window inputs outputs) :
    (FireSeq n₁ xs).1 = (FireSeq n₂ xs).1 ∧
    (FireSeq n₁ xs).2.Q = (FireSeq n₂ xs).2.Q ∧
    (FireSeq n₁ xs).2.K = (FireSeq n₂ xs).2.K ∧
    (FireSeq n₁ xs).2.V = (FireSeq n₂ xs).2.V := by
  subst h₁
  subst h₂
  exact ⟨rfl, rfl, rfl, rfl⟩

/-- C9, witness: two identically constructed nets with seed 42 on the same
one-element input sequence. -/
theorem fire_deterministic_witness :
    (NewNet (fun _ _ => 0) 42 1 1 1 = NewNet (fun _ _ => 0) 42 1 1 1) ∧
    (FireSeq (NewNet (fun _ _ => 0) 42 1 1 1) [[1]]).1
      = (FireSeq (NewNet (fun _ _ => 0) 42 1 1 1) [[1]]).1 :=
  ⟨rfl, (fire_deterministic (fun _ _ => 0) 42 1 1 1 [[1]] _ _ rfl rfl).1⟩

/-- Every weight sampled by `sampleRow` is exactly `+1` or `-1`. -/
theorem sampleRow_sign :
    ∀ (st : List Random) (r : RNG), ∀ x ∈ (sampleRow st r).1, x = 1 ∨ x = -1 := by
  intro st
  induction st with
  | nil => intro r x hx; cases hx
  | cons rv rest ih =>
    intro r x hx
    unfold sampleRow at hx
    dsimp only at hx
    rcases List.mem_cons.mp hx with rfl | hx
    · unfold signThreshold
      by_cases h : preThreshold rv (RNG.norm r).1 > 0
      · left; rw [if_pos h]
      · right; rw [if_neg h]
    · exact ih _ x hx

/-- Every row produced by `sampleSet` holds only `±1` weights. -/
theorem sampleSet_sign :
    ∀ (s : StatSet) (r : RNG), ∀ row ∈ (sampleSet s r).1, ∀ x ∈ row, x = 1 ∨ x = -1 := by
  intro s
  induction s with
  | nil => intro r row hrow; cases hrow
  | cons rs rest ih =>
    intro r row hrow
    unfold sampleSet at hrow
    dsimp only at hrow
    rcases List.mem_cons.mp hrow with rfl | hrow
    · exact sampleRow_sign rs r
    · exact ih _ row hrow

/-- Every population drawn by `sampleMany` holds only `±1` weights. -/
theorem sampleMany_sign :
    ∀ (m : ℕ) (s : StatSet) (input : List ℝ) (r : RNG),
      ∀ t ∈ (sampleMany m s input r).1, ∀ row ∈ t.Neurons, ∀ x ∈ row,
        x = 1 ∨ x = -1 := by
  intro m
  induction m with
  | zero => intro s input r t ht; cases ht
  | succ k ih =>
    intro s input r t ht
    unfold sampleMany at ht
    dsimp only at ht
    rcases List.mem_cons.mp ht with rfl | ht
    · intro row hrow
      have hrow' : row ∈ (sampleSet s r).1 := by
        simpa [sampleOne] using hrow
      exact sampleSet_sign s r row hrow'
    · exact ih s input _ t ht

/-- Assigning entropies leaves every sample's neurons unchanged. -/
theorem assignEntropies_neurons (samples : List Sample) (es : List ℝ) :
    ∀ t ∈ assignEntropies samples es, ∃ s ∈ samples, t.Neurons = s.Neurons := by
  intro t ht
  obtain ⟨a, ha, b, _, rfl⟩ := mem_zipWith _ samples es t ht
  exact ⟨a, ha, rfl⟩

/-- Any elite prefix of the sorted, scored systems holds only `±1`
weights. -/
theorem sortedSystems_bounded (m : ℕ) (s : StatSet) (input : List ℝ) (r : RNG)
    (es : List ℝ) (W : ℕ) :
    ∀ t ∈ (sortByEntropy (assignEntropies (sampleMany m s input r).1 es)).take W,
      ∀ row ∈ t.Neurons, ∀ x ∈ row, x = 1 ∨ x = -1 := by
  intro t ht
  have h1 : t ∈ sortByEntropy (assignEntropies (sampleMany m s input r).1 es) :=
    List.take_subset _ _ ht
  have h2 : t ∈ assignEntropies (sampleMany m s input r).1 es := by
    unfold sortByEntropy at h1
    exact List.mem_mergeSort.mp h1
  obtain ⟨u, hu, hNe⟩ := assignEntropies_neurons _ _ t h2
  rw [hNe]
  exact sampleMany_sign m s input r u hu

/-- The recomputed statistics of a `±1`-weighted elite window satisfy the
distribution invariant: the mean is an average of `±1` values divided by
the window, and the standard deviation is a square root. -/
theorem statsOf_good (window : ℤ) (outputs inputs : ℕ) (systems : List Sample)
    (hw : 1 ≤ window)
    (hB : ∀ t ∈ systems.take window.toNat, ∀ row ∈ t.Neurons, ∀ x ∈ row,
      x = 1 ∨ x = -1) :
    GoodSet (statsOf window outputs inputs systems) := by
  have h0 : (0 : ℤ) ≤ window := le_trans zero_le_one hw
  have hWpos : (0 : ℝ) < ((window : ℤ) : ℝ) := by
    exact_mod_cast lt_of_lt_of_le zero_lt_one hw
  unfold GoodSet statsOf
  dsimp only
  intro row hrow rv hrv
  obtain ⟨j, _, rfl⟩ := List.mem_map.mp hrow
  obtain ⟨k, _, rfl⟩ := List.mem_map.mp hrv
  have hentry : ∀ t ∈ systems.take window.toNat,
      |(t.Neurons.getD j []).getD k 0| ≤ 1 := by
    intro t ht
    have hrows : ∀ r ∈ t.Neurons, ∀ x ∈ r, |x| ≤ 1 := by
      intro r hr x hx
      rcases hB t ht r hr x hx with rfl | rfl
      · norm_num
      · norm_num
    have hone : ∀ x ∈ t.Neurons.getD j [], |x| ≤ 1 :=
      getD_pred (fun rr => ∀ x ∈ rr, |x| ≤ 1) [] (by intro x hx; cases hx)
        t.Neurons j hrows
    exact getD_pred (fun x => |x| ≤ 1) 0 (by norm_num) _ k hone
  have habs : |((systems.take window.toNat).map
      (fun t => (t.Neurons.getD j []).getD k 0)).sum|
      ≤ ((systems.take window.toNat).map
        (fun t => (t.Neurons.getD j []).getD k 0)).length := by
    apply abs_sum_le_length
    intro x hx
    obtain ⟨t, ht, rfl⟩ := List.mem_map.mp hx
    exact hentry t ht
  have hlen : (((systems.take window.toNat).map
      (fun t => (t.Neurons.getD j []).getD k 0)).length : ℝ)
      ≤ ((window : ℤ) : ℝ) := by
    have h1 : ((systems.take window.toNat).map
        (fun t => (t.Neurons.getD j []).getD k 0)).length ≤ window.toNat := by
      rw [List.length_map, List.length_take]
      exact min_le_left _ _
    calc (((systems.take window.toNat).map
        (fun t => (t.Neurons.getD j []).getD k 0)).length : ℝ)
        ≤ (window.toNat : ℝ) := by exact_mod_cast h1
      _ = ((window : ℤ) : ℝ) := by
        exact_mod_cast congrArg (fun z : ℤ => (z : ℝ)) (Int.toNat_of_nonneg h0)
  have hdiv : |((systems.take window.toNat).map
      (fun t => (t.Neurons.getD j []).getD k 0)).sum / ((window : ℤ) : ℝ)| ≤ 1 := by
    rw [abs_div, abs_of_pos hWpos, div_le_one hWpos]
    exact le_trans habs hlen
  have hmean := abs_le.mp hdiv
  exact ⟨⟨hmean.1, hmean.2⟩, Real.sqrt_nonneg _⟩

/-- The exponential blend with rate `3/10` preserves the distribution
invariant coordinatewise. -/
theorem blendSet_good (old elite : StatSet) (hold : GoodSet old)
    (helite : GoodSet elite) : GoodSet (blendSet old elite) := by
  intro row hrow rv hrv
  unfold blendSet at hrow
  obtain ⟨orow, ho, erow, he, rfl⟩ := mem_zipWith _ old elite row hrow
  obtain ⟨o, hoe, e, hee, rfl⟩ := mem_zipWith _ orow erow rv hrv
  obtain ⟨⟨ho1, ho2⟩, ho3⟩ := hold orow ho o hoe
  obtain ⟨⟨he1, he2⟩, he3⟩ := helite erow he e hee
  refine ⟨⟨?_, ?_⟩, ?_⟩
  · show -1 ≤ (1 - Rate) * o.Mean + Rate * e.Mean
    unfold Rate
    linarith
  · show (1 - Rate) * o.Mean + Rate * e.Mean ≤ 1
    unfold Rate
    linarith
  · show 0 ≤ (1 - Rate) * o.StdDev + Rate * e.StdDev
    unfold Rate
    linarith

/-- Freshly constructed statistics (mean 0, standard deviation 1) satisfy
the distribution invariant. -/
theorem newStatistics_good (inputs outputs : ℕ) :
    GoodSet (NewStatistics inputs outputs) := by
  intro row hrow rv hrv
  have hrow' := List.eq_of_mem_replicate hrow
  subst hrow'
  have hrv' := List.eq_of_mem_replicate hrv
  subst hrv'
  refine ⟨⟨?_, ?_⟩, ?_⟩ <;> norm_num

/-- C10: for every net whose window satisfies `1 ≤ W ≤ SampleCount`, the
invariant that every distribution coordinate has `StdDev ≥ 0` and
`Mean ∈ [-1, 1]` holds for freshly constructed statistics and is preserved
across a `Fire` call for all three roles — the recomputed standard
deviation is a square root and the exponential blend uses nonnegative
coefficients (finiteness is implicit in the real-valued model). -/
theorem fire_preserves_invariant (ninputs noutputs : ℕ) (n : Net)
    (input : List ℝ) (hw1 : 1 ≤ n.window) (hw2 : n.window ≤ (Samples : ℤ))
    (hQ : GoodSet n.Q) (hK : GoodSet n.K) (hV : GoodSet n.V) :
    GoodSet (NewStatistics ninputs noutputs) ∧
    GoodSet ((Net.Fire n input).2.Q) ∧
    GoodSet ((Net.Fire n input).2.K) ∧
    GoodSet ((Net.Fire n input).2.V) := by
  refine ⟨newStatistics_good _ _, ?_, ?_, ?_⟩
  · unfold Net.Fire
    dsimp only
    apply blendSet_good _ _ hQ
    unfold Net.CalculateStatistics
    exact statsOf_good _ _ _ _ hw1 (sortedSystems_bounded _ _ _ _ _ _)
  · unfold Net.Fire
    dsimp only
    apply blendSet_good _ _ hK
    unfold Net.CalculateStatistics
    exact statsOf_good _ _ _ _ hw1 (sortedSystems_bounded _ _ _ _ _ _)
  · unfold Net.Fire
    dsimp only
    apply blendSet_good _ _ hV
    unfold Net.CalculateStatistics
    exact statsOf_good _ _ _ _ hw1 (sortedSystems_bounded _ _ _ _ _ _)

/-- C10, witness: a degenerate net (no outputs) with window 1; the empty
distribution sets satisfy the invariant vacuously. -/
theorem fire_preserves_invariant_witness :
    ((1 : ℤ) ≤ 1 ∧ (1 : ℤ) ≤ (Samples : ℤ) ∧ GoodSet []) ∧
    GoodSet ((Net.Fire (Net.mk 1 0 0 ⟨fun _ => 0, 0⟩ [] [] []) []).2.Q) :=
  ⟨⟨le_rfl, by norm_num [Samples], fun row hrow => absurd hrow (List.not_mem_nil row)⟩,
   (fire_preserves_invariant 0 0 (Net.mk 1 0 0 ⟨fun _ => 0, 0⟩ [] [] []) []
      le_rfl (by norm_num [Samples])
      (fun row hrow => absurd hrow (List.not_mem_nil row))
      (fun row hrow => absurd hrow (List.not_mem_nil row))
      (fun row hrow => absurd hrow (List.not_mem_nil row))).2.1⟩

end Robot
